import Mathlib

/-!
Verification of the IPFormate endpoint-list manager against its
natural-language specification.

The development shallowly embeds the relevant source functions:

* `parseBatchInput` and `sanitizeRegion` from the enhanced two-pass batch
  parser (link-form pass with `protocolPattern`, then address-pattern pass
  with `standardPattern`, sharing one `seen` dedup set).
  The JavaScript regexes are embedded as ASTs for a small backtracking
  matcher (`matchRE`) that reproduces the JS semantics used here:
  leftmost match, left-preferring alternation, greedy quantifiers with
  backtracking, capture groups.  `uuidv4()` is modelled by an id supply
  `gen : Nat → String` consumed once per emitted record, in emission order.
* `fetchIpGeo` from the multi-provider geo resolver.  The network is
  modelled by a list of per-provider attempt outcomes (in the shuffled
  visit order); everything the code observes of a response is whether it
  threw / was 429 / was not ok / was ok with an extracted field.
* `applyResultToEntries` and the fixed-entry bulk clear from the pipeline
  screen, and `handleSingleAdd` / `handleBatchAdd` from the input screen.
-/

/-! ## Data model -/

/-- The `IpEntry` record shape (`types.ts`, later variant with the
optional `isLocked` flag; an absent field is `none`). -/
structure IpEntry where
  id : String
  ip : String
  port : String
  region : String
  active : Bool
  isLocked : Option Bool := none
deriving DecidableEq, Repr

/-- The observable payload of a parsed match before dedup/emission:
the `ip`, `port` and cleaned `region` that a parser pass pushes. -/
structure Cand where
  ip : String
  port : String
  region : String
deriving DecidableEq, Repr

/-- Data of an entry with the freshly generated `id` erased (and the
constant `active := true`, `isLocked := none` of parser-created entries
dropped). -/
def entryCand (e : IpEntry) : Cand := ⟨e.ip, e.port, e.region⟩

/-! ## Character classes

Boolean character predicates for the character classes appearing in the
source regexes.  JS `\s` also contains some non-ASCII white space; only
the ASCII part is modelled (all inputs considered here are ASCII or CJK
text, where the two agree). -/

/-- JS `\d` (ASCII digits). -/
def isDigitC (c : Char) : Bool := c.isDigit

/-- JS `\w` = `[A-Za-z0-9_]`. -/
def isWordC (c : Char) : Bool := c.isAlphanum || c == '_'

/-- The class `[a-fA-F0-9:]` used for IPv6 bodies. -/
def isHexColonC (c : Char) : Bool :=
  c.isDigit || (decide ('a' ≤ c) && decide (c ≤ 'f')) ||
    (decide ('A' ≤ c) && decide (c ≤ 'F')) || c == ':'

/-- JS `\s` (ASCII part): space, tab, newline, carriage return, vertical
tab, form feed. -/
def isSpaceJS (c : Char) : Bool :=
  c == ' ' || c == '\t' || c == '\n' || c == '\r' ||
    c == Char.ofNat 11 || c == Char.ofNat 12

/-- The class `[\w\.-]` of unbracketed link-form hosts. -/
def isWordDotDashC (c : Char) : Bool := isWordC c || c == '.' || c == '-'

/-- JS `[^@\s]`. -/
def notAtSpaceC (c : Char) : Bool := !(c == '@' || isSpaceJS c)

/-- JS `[^#\s]`. -/
def notHashSpaceC (c : Char) : Bool := !(c == '#' || isSpaceJS c)

/-- JS `[^\s\n\r]` (`\n` and `\r` are already in `\s`). -/
def notSpaceC (c : Char) : Bool := !(isSpaceJS c)

/-! ## A small backtracking regex engine

`RE` is the abstract syntax of the fragment of JS regexes the parser
uses.  `matchRE` is a continuation-passing backtracking matcher with the
JS ordering: alternation prefers its left branch, `?`, `*`, `{m,n}` and
`+` are greedy and give back on continuation failure.  The `Nat` fuel
only bounds the nesting depth of the walk (one unit per regex node, plus
one per iteration of a `*`/`{m,n}` node); every value used below supplies
more than enough fuel for its input. -/

/-- Regex abstract syntax: character class, concatenation, alternation,
greedy option / Kleene star / bounded repetition `{lo,hi}`, and a
numbered capture group. -/
inductive RE where
  | eps : RE
  | chr (p : Char → Bool) : RE
  | cat (a b : RE) : RE
  | alt (a b : RE) : RE
  | opt (a : RE) : RE
  | star (a : RE) : RE
  | rep (a : RE) (lo hi : Nat) : RE
  | group (idx : Nat) (a : RE) : RE

/-- Captured groups: most recent capture first. -/
abbrev Caps := List (Nat × List Char)

/-- Lazy `Option` alternative (second branch only evaluated on failure of
the first), the engine's backtracking combinator. -/
def orElseT {α : Type} (a : Option α) (b : Unit → Option α) : Option α :=
  match a with
  | some v => some v
  | none => b ()

/-- The backtracking matcher.  `matchRE fuel r s caps k` tries to match a
prefix of `s` against `r`, extending captures `caps`, and runs the
continuation `k` on the remainder; on failure of the continuation it
backtracks into the remaining alternatives of `r`. -/
def matchRE {α : Type} : Nat → RE → List Char → Caps →
    (List Char → Caps → Option α) → Option α
  | 0, _, _, _, _ => none
  | Nat.succ fuel, r, s, caps, k =>
    match r with
    | .eps => k s caps
    | .chr p =>
      match s with
      | [] => none
      | c :: rest => if p c then k rest caps else none
    | .cat a b => matchRE fuel a s caps (fun s1 c1 => matchRE fuel b s1 c1 k)
    | .alt a b =>
      orElseT (matchRE fuel a s caps k) (fun _ => matchRE fuel b s caps k)
    | .opt a => orElseT (matchRE fuel a s caps k) (fun _ => k s caps)
    | .star a =>
      orElseT
        (matchRE fuel a s caps (fun s1 c1 =>
          if s1.length < s.length then matchRE fuel (.star a) s1 c1 k
          else k s1 c1))
        (fun _ => k s caps)
    | .rep a lo hi =>
      match hi with
      | 0 => k s caps
      | Nat.succ hi' =>
        match lo with
        | 0 =>
          orElseT
            (matchRE fuel a s caps (fun s1 c1 =>
              matchRE fuel (.rep a 0 hi') s1 c1 k))
            (fun _ => k s caps)
        | Nat.succ lo' =>
          matchRE fuel a s caps (fun s1 c1 =>
            matchRE fuel (.rep a lo' hi') s1 c1 k)
    | .group i a =>
      matchRE fuel a s caps (fun s1 c1 =>
        k s1 ((i, s.take (s.length - s1.length)) :: c1))

/-- JS `x+` as `x` followed by greedy `x*`. -/
def plusC (p : Char → Bool) : RE := .cat (.chr p) (.star (.chr p))

/-- One match attempt anchored at the start of `s`; returns the length of
the consumed prefix and the captures. -/
def tryMatch (r : RE) (s : List Char) : Option (Nat × Caps) :=
  matchRE (2 * s.length + 64) r s [] (fun s1 caps => some (s.length - s1.length, caps))

/-- One regex match as the parser consumes it: its start offset, length,
and captures. -/
structure MatchInfo where
  index : Nat
  len : Nat
  caps : Caps

/-- Worker for `execAll`: try each start offset left to right (the JS
leftmost-match rule), continuing after each match (`lastIndex`). -/
def execGo (r : RE) (s : List Char) : Nat → Nat → List MatchInfo
  | 0, _ => []
  | Nat.succ fuel, pos =>
    if pos ≤ s.length then
      match tryMatch r (s.drop pos) with
      | none => execGo r s fuel (pos + 1)
      | some (len, caps) => ⟨pos, len, caps⟩ :: execGo r s fuel (pos + max len 1)
    else []

/-- All matches of `r` in `s`, in order, as produced by the JS
`while ((m = re.exec(text)) !== null)` loop over a `g` regex. -/
def execAll (r : RE) (s : List Char) : List MatchInfo := execGo r s (s.length + 1) 0

/-- Capture lookup (`m[idx]`); groups that did not participate yield `[]`
(the code only reads groups that always participate in a match). -/
def capOf (caps : Caps) (idx : Nat) : List Char :=
  match caps.find? (fun pr => pr.1 == idx) with
  | some pr => pr.2
  | none => []

/-! ## The two source regexes -/

/-- `protocolPattern` =
`/(\w+):\/\/([^@\s]+@)?([\w\.-]+|\[[a-fA-F0-9:]+\]):(\d+)[^#\s]*#?([^\s\n\r]*)/g`.
The captures of group 1 (the scheme) and group 2 (the credentials) are
never read by the code, so those two groups are embedded without a
capture wrapper; groups 3 (host), 4 (port) and 5 (fragment) are kept. -/
def protocolRE : RE :=
  .cat (plusC isWordC)
   (.cat (.chr (fun c => c == ':'))
    (.cat (.chr (fun c => c == '/'))
     (.cat (.chr (fun c => c == '/'))
      (.cat (.opt (.cat (plusC notAtSpaceC) (.chr (fun c => c == '@'))))
       (.cat (.group 3 (.alt (plusC isWordDotDashC)
                (.cat (.chr (fun c => c == '['))
                 (.cat (plusC isHexColonC) (.chr (fun c => c == ']'))))))
        (.cat (.chr (fun c => c == ':'))
         (.cat (.group 4 (plusC isDigitC))
          (.cat (.star (.chr notHashSpaceC))
           (.cat (.opt (.chr (fun c => c == '#')))
            (.group 5 (.star (.chr notSpaceC))))))))))))

/-- `standardPattern` =
`/((?:\d{1,3}\.){3}\d{1,3}|\[?[a-fA-F0-9:]+\]?)[:|,]\s*(\d{2,5})/g`. -/
def standardRE : RE :=
  .cat (.group 1 (.alt
          (.cat (.rep (.cat (.rep (.chr isDigitC) 1 3) (.chr (fun c => c == '.'))) 3 3)
                (.rep (.chr isDigitC) 1 3))
          (.cat (.opt (.chr (fun c => c == '[')))
           (.cat (plusC isHexColonC) (.opt (.chr (fun c => c == ']')))))))
   (.cat (.chr (fun c => c == ':' || c == '|' || c == ','))
    (.cat (.star (.chr isSpaceJS))
     (.group 2 (.rep (.chr isDigitC) 2 5))))

/-! ## String helpers used by the parser -/

/-- JS `String.prototype.trim` (ASCII white space). -/
def trimL (l : List Char) : List Char :=
  ((l.dropWhile isSpaceJS).reverse.dropWhile isSpaceJS).reverse

/-- JS `.replace(/[\[\]]/g, '')`: drop all square brackets. -/
def stripBrackets (l : List Char) : List Char :=
  l.filter (fun c => !(c == '[' || c == ']'))

/-- JS `.toUpperCase()` (ASCII; CJK characters are fixed points in both). -/
def upperL (l : List Char) : List Char := l.map Char.toUpper

/-- First index at which `pat` occurs in `s`, if any (the search of JS
`String.prototype.replace` with a string pattern). -/
def findSub : List Char → List Char → Option Nat
  | _, [] => some 0
  | [], _ :: _ => none
  | s@(_ :: srest), pat =>
    if pat.isPrefixOf s then some 0
    else (findSub srest pat).map (· + 1)

/-- JS `s.replace(pat, ' '.repeat(pat.length))` for a plain string `pat`:
blank out the first occurrence of `pat`, if any. -/
def maskFirst (s pat : List Char) : List Char :=
  match findSub s pat with
  | none => s
  | some i => s.take i ++ List.replicate pat.length ' ' ++ s.drop (i + pat.length)

/-- Value of a hex digit, as used by `decodeURIComponent` escapes. -/
def hexVal (c : Char) : Option Nat :=
  if isDigitC c then some (c.toNat - 48)
  else if decide ('A' ≤ c) && decide (c ≤ 'F') then some (c.toNat - 55)
  else if decide ('a' ≤ c) && decide (c ≤ 'f') then some (c.toNat - 87)
  else none

/-- First phase of `decodeURIComponent`: replace every `%XX` escape by the
byte it denotes, keeping other characters; `none` on a malformed escape
(JS throws `URIError` there). -/
def pctTokens : List Char → Option (List (Sum Nat Char))
  | [] => some []
  | '%' :: h :: l :: rest => do
    let a ← hexVal h
    let b ← hexVal l
    let r ← pctTokens rest
    pure (Sum.inl (16 * a + b) :: r)
  | '%' :: _ => none
  | c :: rest => (pctTokens rest).map (Sum.inr c :: ·)

/-- Second phase of `decodeURIComponent`: decode runs of escape bytes as
UTF-8; `none` on an invalid sequence (JS throws `URIError` there). -/
def utf8Tokens : List (Sum Nat Char) → Option (List Char)
  | [] => some []
  | Sum.inr c :: rest => (utf8Tokens rest).map (c :: ·)
  | Sum.inl b :: rest =>
    if b < 0x80 then (utf8Tokens rest).map (Char.ofNat b :: ·)
    else if 0xC0 ≤ b && b < 0xE0 then
      match rest with
      | Sum.inl b1 :: rest' =>
        if 0x80 ≤ b1 && b1 < 0xC0 then
          let n := (b - 0xC0) * 64 + (b1 - 0x80)
          if 0x80 ≤ n then (utf8Tokens rest').map (Char.ofNat n :: ·) else none
        else none
      | _ => none
    else if 0xE0 ≤ b && b < 0xF0 then
      match rest with
      | Sum.inl b1 :: Sum.inl b2 :: rest' =>
        if (0x80 ≤ b1 && b1 < 0xC0) && (0x80 ≤ b2 && b2 < 0xC0) then
          let n := (b - 0xE0) * 4096 + (b1 - 0x80) * 64 + (b2 - 0x80)
          if 0x800 ≤ n && !(0xD800 ≤ n && n ≤ 0xDFFF) then
            (utf8Tokens rest').map (Char.ofNat n :: ·)
          else none
        else none
      | _ => none
    else if 0xF0 ≤ b && b < 0xF8 then
      match rest with
      | Sum.inl b1 :: Sum.inl b2 :: Sum.inl b3 :: rest' =>
        if (0x80 ≤ b1 && b1 < 0xC0) && (0x80 ≤ b2 && b2 < 0xC0) &&
            (0x80 ≤ b3 && b3 < 0xC0) then
          let n := (b - 0xF0) * 262144 + (b1 - 0x80) * 4096 +
                     (b2 - 0x80) * 64 + (b3 - 0x80)
          if 0x10000 ≤ n && n ≤ 0x10FFFF then
            (utf8Tokens rest').map (Char.ofNat n :: ·)
          else none
        else none
      | _ => none
    else none

/-- JS `decodeURIComponent`, `none` where JS throws. -/
def percentDecode (l : List Char) : Option (List Char) := do
  utf8Tokens (← pctTokens l)

/-! ## The batch parser (`parseBatchInput`, `sanitizeRegion`) -/

/-- The separators of `sanitizeRegion`: `/[-_ \/\|]/`. -/
def isSanSepC (c : Char) : Bool :=
  c == '-' || c == '_' || c == ' ' || c == '/' || c == '|'

/-- `sanitizeRegion`: keep only the text before the first separator,
trimmed and upper-cased; empty input stays empty. -/
def sanitizeRegion (text : List Char) : List Char :=
  match text with
  | [] => []
  | _ :: _ => upperL (trimL (text.takeWhile (fun c => !(isSanSepC c))))

/-- The characters stripped from the front of an address-pass remark:
class `[\s,;#|#-]`. -/
def isRemarkStripC (c : Char) : Bool :=
  isSpaceJS c || c == ',' || c == ';' || c == '#' || c == '|' || c == '-'

/-- The full matched substring `m[0]` of a match. -/
def matchString (tl : List Char) (m : MatchInfo) : List Char :=
  (tl.drop m.index).take m.len

/-- The protocol-pass matches of the input (`protocolPattern.exec(text)`
iterates over the original `text`, which is never mutated). -/
def protoMatchesOf (text : String) : List MatchInfo :=
  execAll protocolRE text.toList

/-- Payload pushed by one iteration of the link-form loop: host with IPv6
brackets stripped, port, and the fragment after `#` percent-decoded when
possible (raw on decode failure, empty when absent), cleaned by
`sanitizeRegion`. -/
def protoCand (m : MatchInfo) : Cand :=
  let ip := stripBrackets (capOf m.caps 3)
  let port := capOf m.caps 4
  let frag := capOf m.caps 5
  let remark := if frag.isEmpty then [] else (percentDecode frag).getD frag
  ⟨⟨ip⟩, ⟨port⟩, ⟨sanitizeRegion remark⟩⟩

/-- The link-form candidates in scan order. -/
def protoCandsOf (text : String) : List Cand :=
  (protoMatchesOf text).map protoCand

/-- `remainingText` after the link-form loop: each iteration blanks out
the first occurrence of its full match. -/
def maskedOf (text : String) : List Char :=
  (protoMatchesOf text).foldl (fun r m => maskFirst r (matchString text.toList m))
    text.toList

/-- The address-pattern matches over the masked text. -/
def stdMatchesOf (text : String) : List MatchInfo :=
  execAll standardRE (maskedOf text)

/-- The address-pattern candidates: host (brackets stripped), port, and
the remark recovered from the gap to the next match — the gap text,
trimmed, with leading separator punctuation dropped, cut at the first
newline/comma/semicolon, trimmed, and cleaned by `sanitizeRegion`. -/
def stdCands (rem : List Char) : List MatchInfo → List Cand
  | [] => []
  | m :: rest =>
    let endPos := match rest with
      | [] => rem.length
      | m2 :: _ => m2.index
    let suffix := trimL ((rem.take endPos).drop (m.index + m.len))
    let rawRegion := trimL ((suffix.dropWhile isRemarkStripC).takeWhile
      (fun c => !(c == '\n' || c == ',' || c == ';')))
    ⟨⟨stripBrackets (capOf m.caps 1)⟩, ⟨capOf m.caps 2⟩, ⟨sanitizeRegion rawRegion⟩⟩ ::
      stdCands rem rest

/-- The address-pattern candidates of the input. -/
def stdCandsOf (text : String) : List Cand :=
  stdCands (maskedOf text) (stdMatchesOf text)

/-- All candidates in scan order: the link-form loop runs first, then the
address-pattern loop over the masked remainder. -/
def candidatesOf (text : String) : List Cand :=
  if text = "" then [] else protoCandsOf text ++ stdCandsOf text

/-- The shared dedup-and-emit step of both loops: an entry is pushed only
when its `` `${ip}:${port}` `` key is not in the `seen` set; `uuidv4()` is
drawn (as `gen ctr`) only on a push. -/
def emitGo (gen : Nat → String) : List Cand → List String → List IpEntry → Nat → List IpEntry
  | [], _, out, _ => out
  | c :: rest, seen, out, ctr =>
    let key := c.ip ++ ":" ++ c.port
    if key ∈ seen then emitGo gen rest seen out ctr
    else emitGo gen rest (key :: seen)
      (out ++ [{ id := gen ctr, ip := c.ip, port := c.port, region := c.region,
                 active := true, isLocked := none }]) (ctr + 1)

/-- `parseBatchInput` of the enhanced parser: run both passes and emit
with the shared dedup set (empty input returns `[]` immediately).

The JS function interleaves, inside each loop iteration, the candidate
computation, the dedup-and-push, and (in the first loop) the masking of
`remainingText`.  The phases commute and are embedded separately:
`protocolPattern.exec` iterates over the original `text`, which is never
mutated, so the link-form matches and their payloads do not depend on
the masking; the masking feeds only the second pass; and the address
pass computes every candidate from the fixed match list and
`remainingText` before any dedup decision.  The emission order (all
link-form pushes, then all address-pattern pushes, each in match order)
and the evolution of the shared `seen` set are exactly the code's. -/
def parseBatchInput (gen : Nat → String) (text : String) : List IpEntry :=
  emitGo gen (candidatesOf text) [] [] 0

/-! ## The geo resolver (`fetchIpGeo`) -/

/-- An anchored `^...` regex test: the host begins with the given literal
prefix. -/
def startsWithL (s pre : String) : Bool := pre.data.isPrefixOf s.data

/-- The `^172\.(1[6-9]|2[0-9]|3[0-1])\.` private-range test, with the
alternation `1[6-9]|2[0-9]|3[0-1]` spelled out. -/
def is172Private (ip : String) : Bool :=
  ["172.16.", "172.17.", "172.18.", "172.19.", "172.20.", "172.21.",
   "172.22.", "172.23.", "172.24.", "172.25.", "172.26.", "172.27.",
   "172.28.", "172.29.", "172.30.", "172.31."].any (startsWithL ip)

/-- The `privatePatterns` list: `^127\.`, `^192\.168\.`, `^10\.`,
`^172\.(1[6-9]|2[0-9]|3[0-1])\.`, `^::1$`, `^fc00:`, `^fe80:`. -/
def isPrivateIp (ip : String) : Bool :=
  startsWithL ip "127." || startsWithL ip "192.168." || startsWithL ip "10." ||
    is172Private ip || ip == "::1" || startsWithL ip "fc00:" || startsWithL ip "fe80:"

/-- Everything `fetchIpGeo` observes of one provider call: the `fetch` /
`response.json()` threw (network error, CORS, or the 3.5s abort), the
response was a 429, the response was otherwise not ok, or it was ok and
the provider's `parser` extracted `code` (`none` for a missing field). -/
inductive ApiAttempt where
  | fetchError : ApiAttempt
  | status429 : ApiAttempt
  | notOk : ApiAttempt
  | ok (code : Option String) : ApiAttempt
deriving DecidableEq, Repr

/-- The provider loop: first ok response whose extracted field is present
and not an unknown sentinel (`''`/falsy, `'-'`, `'None'`, `'??'`) wins,
upper-cased; every other outcome falls through to the next provider;
`"FAIL"` when the list is exhausted. -/
def geoLoop : List ApiAttempt → String
  | [] => "FAIL"
  | ApiAttempt.ok (some code) :: rest =>
    if !(code == "" || code == "-" || code == "None" || code == "??") then
      code.map Char.toUpper
    else geoLoop rest
  | _ :: rest => geoLoop rest

/-- `fetchIpGeo`: empty host short-circuits to `''`, a private/loopback
host to `'LOCAL'`; otherwise the providers are consulted in their
shuffled order, modelled by the order of `attempts`. -/
def fetchIpGeo (ip : String) (attempts : List ApiAttempt) : String :=
  if ip = "" then ""
  else if isPrivateIp ip then "LOCAL"
  else geoLoop attempts

/-- An attempt the code treats as a failure: anything but an ok response
with a present, non-sentinel extracted field. -/
def attemptFails : ApiAttempt → Bool
  | ApiAttempt.ok (some code) => code == "" || code == "-" || code == "None" || code == "??"
  | _ => true

/-! ## The resolution pipeline (`handleIdentifyRegions` internals) -/

/-- The in-progress sentinel written before lookups start. -/
def inProgressSentinel : String := "识别中..."

/-- `applyResultToEntries ip region`: the functional update passed to
`setEntries` when a worker's lookup for `ip` completes — rewrite the
region of every entry that still shares that ip and is still marked
in-progress, leaving every other entry untouched. -/
def applyResultToEntries (ip region : String) (entries : List IpEntry) : List IpEntry :=
  entries.map (fun e =>
    if e.ip == ip && e.region == inProgressSentinel then { e with region := region } else e)

/-- `INITIAL_FIXED_ENTRY`, the locked placeholder record. -/
def INITIAL_FIXED_ENTRY : IpEntry :=
  { id := "fixed-placeholder-system-001", ip := "127.0.0.1", port := "80",
    region := "LOCAL", active := true, isLocked := some true }

/-- The confirmed branch of `handleClearClick`:
`setEntries([INITIAL_FIXED_ENTRY])`, regardless of the current list. -/
def handleClearConfirm (_entries : List IpEntry) : List IpEntry :=
  [INITIAL_FIXED_ENTRY]

/-! ## The input screen (`handleSingleAdd`, `handleBatchAdd`) -/

/-- `isDuplicate`: some existing entry has the same ip and port. -/
def isDuplicate (existing : List IpEntry) (ip port : String) : Bool :=
  existing.any (fun e => e.ip == ip && e.port == port)

/-- Outcome of the single-entry path: a user-visible validation message
(missing field, denied port, duplicate) or the created record. -/
inductive SingleAddResult where
  | missingFields : SingleAddResult
  | forbiddenPort : SingleAddResult
  | duplicate : SingleAddResult
  | added (e : IpEntry) : SingleAddResult
deriving DecidableEq, Repr

/-- `handleSingleAdd`: require ip and port, deny ports 80/8080, reject
duplicates, otherwise create the record. -/
def handleSingleAdd (genId ip port region : String) (existing : List IpEntry) :
    SingleAddResult :=
  if ip = "" || port = "" then SingleAddResult.missingFields
  else if port == "80" || port == "8080" then SingleAddResult.forbiddenPort
  else if isDuplicate existing ip port then SingleAddResult.duplicate
  else SingleAddResult.added
    { id := genId, ip := ip, port := port, region := region, active := true, isLocked := none }

/-- State of `handleBatchAdd`'s filter loop: accepted entries, duplicate
count, and the denied-port count surfaced to the user. -/
structure BatchResult where
  newEntries : List IpEntry
  dups : Nat
  forbidden : Nat
deriving Repr

/-- One iteration of `handleBatchAdd`'s `parsed.forEach`: ports 80/8080
are counted and skipped first; then duplicates (against the existing list
and the batch collected so far) are counted; the rest are accepted. -/
def batchStep (existing : List IpEntry) (st : BatchResult) (entry : IpEntry) : BatchResult :=
  if entry.port == "80" || entry.port == "8080" then
    { st with forbidden := st.forbidden + 1 }
  else if !(isDuplicate existing entry.ip entry.port) &&
      !(st.newEntries.any (fun ne => ne.ip == entry.ip && ne.port == entry.port)) then
    { st with newEntries := st.newEntries ++ [entry] }
  else { st with dups := st.dups + 1 }

/-- The filter loop of `handleBatchAdd` over the parser output. -/
def handleBatchAdd (parsed existing : List IpEntry) : BatchResult :=
  parsed.foldl (batchStep existing) ⟨[], 0, 0⟩

/-! ## Engine lemmas

Inversion principles for successful matches, used to prove input-independent
properties of the two parser passes. -/

theorem orElseT_eq_some {α : Type} (a : Option α) (b : Unit → Option α) (v : α)
    (h : orElseT a b = some v) : a = some v ∨ b () = some v := by
  cases a with
  | none => exact Or.inr h
  | some w => exact Or.inl h

/-- A successful match always reaches its continuation. -/
theorem matchRE_factor {α : Type} :
    ∀ (fuel : Nat) (r : RE) (s : List Char) (caps : Caps)
      (k : List Char → Caps → Option α) (v : α),
      matchRE fuel r s caps k = some v → ∃ s' caps', k s' caps' = some v := by
  intro fuel
  induction fuel with
  | zero => intro r s caps k v h; simp [matchRE] at h
  | succ fuel ih =>
    intro r s caps k v h
    cases r with
    | eps => exact ⟨s, caps, h⟩
    | chr p =>
      cases s with
      | nil => simp [matchRE] at h
      | cons c rest =>
        simp only [matchRE] at h
        by_cases hp : p c = true
        · rw [if_pos hp] at h; exact ⟨rest, caps, h⟩
        · rw [if_neg hp] at h; exact absurd h (by simp)
    | cat a b =>
      simp only [matchRE] at h
      obtain ⟨s1, c1, h1⟩ := ih _ _ _ _ _ h
      exact ih _ _ _ _ _ h1
    | alt a b =>
      simp only [matchRE] at h
      rcases orElseT_eq_some _ _ _ h with h1 | h1
      · exact ih _ _ _ _ _ h1
      · exact ih _ _ _ _ _ h1
    | opt a =>
      simp only [matchRE] at h
      rcases orElseT_eq_some _ _ _ h with h1 | h1
      · exact ih _ _ _ _ _ h1
      · exact ⟨s, caps, h1⟩
    | star a =>
      simp only [matchRE] at h
      rcases orElseT_eq_some _ _ _ h with h1 | h1
      · obtain ⟨s1, c1, h2⟩ := ih _ _ _ _ _ h1
        by_cases hlt : s1.length < s.length
        · rw [if_pos hlt] at h2; exact ih _ _ _ _ _ h2
        · rw [if_neg hlt] at h2; exact ⟨s1, c1, h2⟩
      · exact ⟨s, caps, h1⟩
    | rep a lo hi =>
      cases hi with
      | zero => simp only [matchRE] at h; exact ⟨s, caps, h⟩
      | succ hi' =>
        cases lo with
        | zero =>
          simp only [matchRE] at h
          rcases orElseT_eq_some _ _ _ h with h1 | h1
          · obtain ⟨s1, c1, h2⟩ := ih _ _ _ _ _ h1
            exact ih _ _ _ _ _ h2
          · exact ⟨s, caps, h1⟩
        | succ lo' =>
          simp only [matchRE] at h
          obtain ⟨s1, c1, h2⟩ := ih _ _ _ _ _ h
          exact ih _ _ _ _ _ h2
    | group i a =>
      simp only [matchRE] at h
      obtain ⟨s1, c1, h1⟩ := ih _ _ _ _ _ h
      exact ⟨s1, _, h1⟩

/-- Inversion for a single character class. -/
theorem matchRE_chr_inv {α : Type} {fuel : Nat} {p : Char → Bool} {s : List Char}
    {caps : Caps} {k : List Char → Caps → Option α} {v : α}
    (h : matchRE fuel (.chr p) s caps k = some v) :
    ∃ c s', s = c :: s' ∧ p c = true ∧ k s' caps = some v := by
  cases fuel with
  | zero => simp [matchRE] at h
  | succ fuel =>
    cases s with
    | nil => simp [matchRE] at h
    | cons c rest =>
      simp only [matchRE] at h
      by_cases hp : p c = true
      · rw [if_pos hp] at h; exact ⟨c, rest, rfl, hp, h⟩
      · rw [if_neg hp] at h; exact absurd h (by simp)

/-- Unfolding for concatenation (the fuel must be positive on success). -/
theorem matchRE_cat_inv {α : Type} {fuel : Nat} {a b : RE} {s : List Char}
    {caps : Caps} {k : List Char → Caps → Option α} {v : α}
    (h : matchRE fuel (.cat a b) s caps k = some v) :
    ∃ f', matchRE f' a s caps (fun s1 c1 => matchRE f' b s1 c1 k) = some v := by
  cases fuel with
  | zero => simp [matchRE] at h
  | succ fuel => exact ⟨fuel, h⟩

/-- Unfolding for a capture group. -/
theorem matchRE_group_inv {α : Type} {fuel : Nat} {i : Nat} {a : RE} {s : List Char}
    {caps : Caps} {k : List Char → Caps → Option α} {v : α}
    (h : matchRE fuel (.group i a) s caps k = some v) :
    ∃ f', matchRE f' a s caps
      (fun s1 c1 => k s1 ((i, s.take (s.length - s1.length)) :: c1)) = some v := by
  cases fuel with
  | zero => simp [matchRE] at h
  | succ fuel => exact ⟨fuel, h⟩

/-- A star over a character class consumes a run of matching characters
and leaves the captures untouched. -/
theorem matchRE_star_chr {α : Type} :
    ∀ (fuel : Nat) (p : Char → Bool) (s : List Char) (caps : Caps)
      (k : List Char → Caps → Option α) (v : α),
      matchRE fuel (.star (.chr p)) s caps k = some v →
      ∃ t s', s = t ++ s' ∧ (∀ c ∈ t, p c = true) ∧ k s' caps = some v := by
  intro fuel
  induction fuel with
  | zero => intro p s caps k v h; simp [matchRE] at h
  | succ fuel ih =>
    intro p s caps k v h
    simp only [matchRE] at h
    rcases orElseT_eq_some _ _ _ h with h1 | h1
    · obtain ⟨c, s1, rfl, hc, h2⟩ := matchRE_chr_inv h1
      rw [if_pos (by simp)] at h2
      obtain ⟨t, s', rfl, hall, hk⟩ := ih p s1 caps k v h2
      refine ⟨c :: t, s', rfl, ?_, hk⟩
      intro x hx
      rcases List.mem_cons.mp hx with rfl | hx
      · exact hc
      · exact hall x hx
    · exact ⟨[], s, rfl, by simp, h1⟩

/-- A `{lo,hi}` repetition over a character class consumes between `lo`
and `hi` matching characters and leaves the captures untouched. -/
theorem matchRE_rep_chr {α : Type} :
    ∀ (fuel lo hi : Nat) (p : Char → Bool) (s : List Char) (caps : Caps)
      (k : List Char → Caps → Option α) (v : α), lo ≤ hi →
      matchRE fuel (.rep (.chr p) lo hi) s caps k = some v →
      ∃ t s', s = t ++ s' ∧ (∀ c ∈ t, p c = true) ∧ lo ≤ t.length ∧
        t.length ≤ hi ∧ k s' caps = some v := by
  intro fuel
  induction fuel with
  | zero => intro lo hi p s caps k v hle h; simp [matchRE] at h
  | succ fuel ih =>
    intro lo hi p s caps k v hle h
    cases hi with
    | zero =>
      have hlo : lo = 0 := Nat.le_zero.mp hle
      subst hlo
      simp only [matchRE] at h
      exact ⟨[], s, rfl, by simp, Nat.le_refl 0, Nat.zero_le 0, h⟩
    | succ hi' =>
      cases lo with
      | zero =>
        simp only [matchRE] at h
        rcases orElseT_eq_some _ _ _ h with h1 | h1
        · obtain ⟨c, s1, rfl, hc, h2⟩ := matchRE_chr_inv h1
          obtain ⟨t, s', rfl, hall, _, hhi, hk⟩ :=
            ih 0 hi' p s1 caps k v (Nat.zero_le _) h2
          refine ⟨c :: t, s', rfl, ?_, Nat.zero_le _, Nat.succ_le_succ hhi, hk⟩
          intro x hx
          rcases List.mem_cons.mp hx with rfl | hx
          · exact hc
          · exact hall x hx
        · exact ⟨[], s, rfl, by simp, Nat.zero_le _, Nat.zero_le _, h1⟩
      | succ lo' =>
        simp only [matchRE] at h
        obtain ⟨c, s1, rfl, hc, h2⟩ := matchRE_chr_inv h
        obtain ⟨t, s', rfl, hall, hlo, hhi, hk⟩ :=
          ih lo' hi' p s1 caps k v (Nat.succ_le_succ_iff.mp hle) h2
        refine ⟨c :: t, s', rfl, ?_, Nat.succ_le_succ hlo, Nat.succ_le_succ hhi, hk⟩
        intro x hx
        rcases List.mem_cons.mp hx with rfl | hx
        · exact hc
        · exact hall x hx

/-- An optional character class leaves the captures untouched. -/
theorem matchRE_opt_chr {α : Type} {fuel : Nat} {p : Char → Bool} {s : List Char}
    {caps : Caps} {k : List Char → Caps → Option α} {v : α}
    (h : matchRE fuel (.opt (.chr p)) s caps k = some v) :
    ∃ s', k s' caps = some v := by
  cases fuel with
  | zero => simp [matchRE] at h
  | succ fuel =>
    simp only [matchRE] at h
    rcases orElseT_eq_some _ _ _ h with h1 | h1
    · obtain ⟨c, s1, rfl, hc, hk⟩ := matchRE_chr_inv h1
      exact ⟨s1, hk⟩
    · exact ⟨s, h1⟩

/-- A `+` over a character class consumes a nonempty run of matching
characters and leaves the captures untouched. -/
theorem matchRE_plus_chr {α : Type} {fuel : Nat} {p : Char → Bool} {s : List Char}
    {caps : Caps} {k : List Char → Caps → Option α} {v : α}
    (h : matchRE fuel (plusC p) s caps k = some v) :
    ∃ t s', s = t ++ s' ∧ t ≠ [] ∧ (∀ c ∈ t, p c = true) ∧ k s' caps = some v := by
  cases fuel with
  | zero => simp [plusC, matchRE] at h
  | succ fuel =>
    simp only [plusC, matchRE] at h
    obtain ⟨c, s1, rfl, hc, h2⟩ := matchRE_chr_inv h
    obtain ⟨t, s', rfl, hall, hk⟩ := matchRE_star_chr fuel p s1 caps k v h2
    refine ⟨c :: t, s', rfl, by simp, ?_, hk⟩
    intro x hx
    rcases List.mem_cons.mp hx with rfl | hx
    · exact hc
    · exact hall x hx

/-- Taking back the prefix consumed by a group. -/
theorem take_consumed_eq {α : Type} (t u : List α) :
    (t ++ u).take ((t ++ u).length - u.length) = t := by
  rw [List.length_append, Nat.add_sub_cancel]
  exact List.take_left t u

/-- The most recent capture wins. -/
theorem capOf_cons_self (i : Nat) (t : List Char) (c : Caps) :
    capOf ((i, t) :: c) i = t := by
  simp [capOf, List.find?]

/-- Captures for other group numbers are skipped. -/
theorem capOf_cons_ne (i j : Nat) (t : List Char) (c : Caps) (h : i ≠ j) :
    capOf ((i, t) :: c) j = capOf c j := by
  have hb : (i == j) = false := beq_false_of_ne h
  simp [capOf, List.find?, hb]

/-- Any successful `standardPattern` match captures a port (group 2) of
2 to 5 digits. -/
theorem tryMatch_standard_port (s : List Char) (len : Nat) (caps : Caps)
    (h : tryMatch standardRE s = some (len, caps)) :
    2 ≤ (capOf caps 2).length ∧ (capOf caps 2).length ≤ 5 ∧
      ∀ c ∈ capOf caps 2, isDigitC c = true := by
  simp only [tryMatch, standardRE] at h
  obtain ⟨f1, h⟩ := matchRE_cat_inv h
  obtain ⟨s1, c1, h⟩ := matchRE_factor _ _ _ _ _ _ h
  obtain ⟨f2, h⟩ := matchRE_cat_inv h
  obtain ⟨csep, s2, rfl, hsep, h⟩ := matchRE_chr_inv h
  obtain ⟨f3, h⟩ := matchRE_cat_inv h
  obtain ⟨t0, s3, rfl, hws, h⟩ := matchRE_star_chr _ _ _ _ _ _ h
  obtain ⟨f4, h⟩ := matchRE_group_inv h
  obtain ⟨t, s4, hsplit, hdig, h2le, hle5, hk⟩ :=
    matchRE_rep_chr _ _ _ _ _ _ _ _ (by omega) h
  subst hsplit
  rw [take_consumed_eq] at hk
  obtain ⟨rfl, rfl⟩ : len = _ ∧ caps = (2, t) :: c1 := by
    have := hk
    simp only [Option.some.injEq, Prod.mk.injEq] at this
    exact ⟨this.1.symm, this.2.symm⟩
  rw [capOf_cons_self]
  exact ⟨h2le, hle5, hdig⟩

/-- Any successful `protocolPattern` match captures a port (group 4) that
is a nonempty run of digits. -/
theorem tryMatch_proto_port (s : List Char) (len : Nat) (caps : Caps)
    (h : tryMatch protocolRE s = some (len, caps)) :
    capOf caps 4 ≠ [] ∧ ∀ c ∈ capOf caps 4, isDigitC c = true := by
  simp only [tryMatch, protocolRE] at h
  obtain ⟨f1, h⟩ := matchRE_cat_inv h
  obtain ⟨s1, c1, h⟩ := matchRE_factor _ _ _ _ _ _ h
  obtain ⟨f2, h⟩ := matchRE_cat_inv h
  obtain ⟨s2, c2, h⟩ := matchRE_factor _ _ _ _ _ _ h
  obtain ⟨f3, h⟩ := matchRE_cat_inv h
  obtain ⟨s3, c3, h⟩ := matchRE_factor _ _ _ _ _ _ h
  obtain ⟨f4, h⟩ := matchRE_cat_inv h
  obtain ⟨s4, c4, h⟩ := matchRE_factor _ _ _ _ _ _ h
  obtain ⟨f5, h⟩ := matchRE_cat_inv h
  obtain ⟨s5, c5, h⟩ := matchRE_factor _ _ _ _ _ _ h
  obtain ⟨f6, h⟩ := matchRE_cat_inv h
  obtain ⟨s6, c6, h⟩ := matchRE_factor _ _ _ _ _ _ h
  obtain ⟨f7, h⟩ := matchRE_cat_inv h
  obtain ⟨s7, c7, h⟩ := matchRE_factor _ _ _ _ _ _ h
  obtain ⟨f8, h⟩ := matchRE_cat_inv h
  obtain ⟨f9, h⟩ := matchRE_group_inv h
  obtain ⟨t4, s8, hsplit, ht4ne, ht4dig, h⟩ := matchRE_plus_chr h
  subst hsplit
  rw [take_consumed_eq] at h
  obtain ⟨f10, h⟩ := matchRE_cat_inv h
  obtain ⟨t9, s9, rfl, _, h⟩ := matchRE_star_chr _ _ _ _ _ _ h
  obtain ⟨f11, h⟩ := matchRE_cat_inv h
  obtain ⟨s10, h⟩ := matchRE_opt_chr h
  obtain ⟨f12, h⟩ := matchRE_group_inv h
  obtain ⟨t5, s11, rfl, _, h⟩ := matchRE_star_chr _ _ _ _ _ _ h
  rw [take_consumed_eq] at h
  obtain ⟨rfl, rfl⟩ : len = _ ∧ caps = (5, t5) :: (4, t4) :: c7 := by
    have := h
    simp only [Option.some.injEq, Prod.mk.injEq] at this
    exact ⟨this.1.symm, this.2.symm⟩
  rw [capOf_cons_ne 5 4 _ _ (by omega), capOf_cons_self]
  exact ⟨ht4ne, ht4dig⟩

/-! ## From matches to candidates -/

/-- Every match reported by the scan loop is a genuine anchored match at
its `index`. -/
theorem execGo_mem (r : RE) (s : List Char) :
    ∀ (fuel pos : Nat) (m : MatchInfo), m ∈ execGo r s fuel pos →
      tryMatch r (s.drop m.index) = some (m.len, m.caps) := by
  intro fuel
  induction fuel with
  | zero => intro pos m h; simp [execGo] at h
  | succ fuel ih =>
    intro pos m h
    simp only [execGo] at h
    by_cases hpos : pos ≤ s.length
    · rw [if_pos hpos] at h
      cases htm : tryMatch r (s.drop pos) with
      | none => rw [htm] at h; exact ih _ _ h
      | some lc =>
        obtain ⟨len, caps⟩ := lc
        rw [htm] at h
        rcases List.mem_cons.mp h with rfl | h
        · exact htm
        · exact ih _ _ h
    · rw [if_neg hpos] at h
      simp at h

theorem execAll_mem (r : RE) (s : List Char) (m : MatchInfo) (h : m ∈ execAll r s) :
    tryMatch r (s.drop m.index) = some (m.len, m.caps) :=
  execGo_mem r s _ _ m h

/-- The port of every address-pass candidate is the group-2 capture of
one of the matches. -/
theorem stdCands_mem_port (rem : List Char) :
    ∀ (ms : List MatchInfo) (c : Cand), c ∈ stdCands rem ms →
      ∃ m ∈ ms, c.port = String.mk (capOf m.caps 2) := by
  intro ms
  induction ms with
  | nil => intro c hc; simp [stdCands] at hc
  | cons m rest ih =>
    intro c hc
    simp only [stdCands] at hc
    rcases List.mem_cons.mp hc with rfl | hc
    · exact ⟨m, List.mem_cons_self m rest, rfl⟩
    · obtain ⟨m', hm', hp⟩ := ih c hc
      exact ⟨m', List.mem_cons_of_mem m hm', hp⟩

/-- Every address-pass candidate has a port of 2 to 5 digits. -/
theorem stdCandsOf_port (text : String) (c : Cand) (h : c ∈ stdCandsOf text) :
    2 ≤ c.port.length ∧ c.port.length ≤ 5 ∧ ∀ ch ∈ c.port.data, isDigitC ch = true := by
  obtain ⟨m, hm, hp⟩ := stdCands_mem_port _ _ _ h
  have htm := execAll_mem _ _ _ hm
  obtain ⟨h2, h5, hdig⟩ := tryMatch_standard_port _ _ _ htm
  rw [hp]
  exact ⟨h2, h5, hdig⟩

/-- Every link-pass candidate has a nonempty all-digit port. -/
theorem protoCandsOf_port (text : String) (c : Cand) (h : c ∈ protoCandsOf text) :
    c.port.data ≠ [] ∧ ∀ ch ∈ c.port.data, isDigitC ch = true := by
  obtain ⟨m, hm, rfl⟩ := List.mem_map.mp h
  have htm := execAll_mem _ _ _ hm
  obtain ⟨hne, hdig⟩ := tryMatch_proto_port _ _ _ htm
  exact ⟨hne, hdig⟩

/-- No candidate's port contains a colon (ports are digit runs). -/
theorem candidatesOf_port_colonFree (text : String) (c : Cand)
    (h : c ∈ candidatesOf text) : ':' ∉ c.port.data := by
  simp only [candidatesOf] at h
  by_cases ht : text = ""
  · rw [if_pos ht] at h; simp at h
  · rw [if_neg ht] at h
    intro hcol
    rcases List.mem_append.mp h with h1 | h1
    · exact absurd ((protoCandsOf_port text c h1).2 ':' hcol) (by decide)
    · exact absurd ((stdCandsOf_port text c h1).2.2 ':' hcol) (by decide)

/-! ## Deduplication -/

/-- Modelled from the spec: "a record is emitted only the first time a
given `(host, port)` pair is seen during the scan; later occurrences in
the same input are dropped silently."  This is the pair-level dedup the
code's emitted output is compared against. -/
def keepFirstByPair : List Cand → List (String × String) → List Cand
  | [], _ => []
  | c :: rest, seen =>
    if (c.ip, c.port) ∈ seen then keepFirstByPair rest seen
    else c :: keepFirstByPair rest ((c.ip, c.port) :: seen)

/-- Splitting a character list at a colon whose right part is colon-free
is unambiguous. -/
theorem colon_split_inj :
    ∀ (b d a c : List Char), ':' ∉ b → ':' ∉ d → b ++ ':' :: a = d ++ ':' :: c →
      b = d ∧ a = c := by
  intro b
  induction b with
  | nil =>
    intro d a c _ hd h
    cases d with
    | nil => simpa using h
    | cons x xs =>
      exfalso
      simp only [List.nil_append, List.cons_append, List.cons.injEq] at h
      exact hd (h.1 ▸ List.mem_cons_self x xs)
  | cons y ys ih =>
    intro d a c hb hd h
    cases d with
    | nil =>
      exfalso
      simp only [List.cons_append, List.nil_append, List.cons.injEq] at h
      exact hb (h.1 ▸ List.mem_cons_self y ys)
    | cons x xs =>
      simp only [List.cons_append, List.cons.injEq] at h
      obtain ⟨hys, hac⟩ := ih xs a c
        (fun hm => hb (List.mem_cons_of_mem y hm))
        (fun hm => hd (List.mem_cons_of_mem x hm)) h.2
      exact ⟨by rw [h.1, hys], hac⟩

/-- The `` `${ip}:${port}` `` dedup key is injective on pairs whose port
contains no colon. -/
theorem key_inj (ip1 p1 ip2 p2 : String) (h1 : ':' ∉ p1.data) (h2 : ':' ∉ p2.data)
    (h : ip1 ++ ":" ++ p1 = ip2 ++ ":" ++ p2) : ip1 = ip2 ∧ p1 = p2 := by
  have hd : ip1.data ++ ':' :: p1.data = ip2.data ++ ':' :: p2.data := by
    have := congrArg String.data h
    simpa [String.data_append] using this
  have hrev : p1.data.reverse ++ ':' :: ip1.data.reverse =
      p2.data.reverse ++ ':' :: ip2.data.reverse := by
    have := congrArg List.reverse hd
    simpa [List.reverse_append] using this
  obtain ⟨hp, hip⟩ := colon_split_inj _ _ _ _
    (fun hm => h1 (List.mem_reverse.mp hm))
    (fun hm => h2 (List.mem_reverse.mp hm)) hrev
  constructor
  · exact String.ext (by
      have := congrArg List.reverse hip
      simpa using this)
  · exact String.ext (by
      have := congrArg List.reverse hp
      simpa using this)

/-- The emission loop agrees with the spec's first-occurrence dedup, as
long as no port contains a colon (so the string key is faithful to the
pair). -/
theorem emitGo_eq_keepFirst (gen : Nat → String) :
    ∀ (cs : List Cand) (pairs : List (String × String)) (out : List IpEntry) (ctr : Nat),
      (∀ c ∈ cs, ':' ∉ c.port.data) →
      (∀ pr ∈ pairs, ':' ∉ pr.2.data) →
      (emitGo gen cs (pairs.map (fun pr => pr.1 ++ ":" ++ pr.2)) out ctr).map entryCand =
        out.map entryCand ++ keepFirstByPair cs pairs := by
  intro cs
  induction cs with
  | nil => intro pairs out ctr _ _; simp [emitGo, keepFirstByPair]
  | cons c rest ih =>
    intro pairs out ctr hcs hpairs
    simp only [emitGo, keepFirstByPair]
    by_cases hmem : (c.ip, c.port) ∈ pairs
    · have hkey : (c.ip ++ ":" ++ c.port) ∈ pairs.map (fun pr => pr.1 ++ ":" ++ pr.2) :=
        List.mem_map.mpr ⟨(c.ip, c.port), hmem, rfl⟩
      rw [if_pos hkey, if_pos hmem]
      exact ih pairs out ctr (fun x hx => hcs x (List.mem_cons_of_mem c hx)) hpairs
    · have hkey : (c.ip ++ ":" ++ c.port) ∉ pairs.map (fun pr => pr.1 ++ ":" ++ pr.2) := by
        intro hk
        obtain ⟨pr, hpr, heq⟩ := List.mem_map.mp hk
        obtain ⟨hi, hp⟩ := key_inj pr.1 pr.2 c.ip c.port (hpairs pr hpr)
          (hcs c (List.mem_cons_self c rest)) heq
        exact hmem (by rw [← hi, ← hp]; exact hpr)
      rw [if_neg hkey, if_neg hmem]
      have hseen : ((c.ip ++ ":" ++ c.port) :: pairs.map (fun pr => pr.1 ++ ":" ++ pr.2)) =
          (((c.ip, c.port) :: pairs).map (fun pr => pr.1 ++ ":" ++ pr.2)) := rfl
      rw [hseen, ih ((c.ip, c.port) :: pairs) _ (ctr + 1)
        (fun x hx => hcs x (List.mem_cons_of_mem c hx))
        (fun pr hpr => by
          rcases List.mem_cons.mp hpr with rfl | hpr
          · exact hcs c (List.mem_cons_self c rest)
          · exact hpairs pr hpr)]
      simp [entryCand]

/-- The spec-side dedup output has pairwise-distinct pairs none of which
were already seen. -/
theorem keepFirstByPair_nodup :
    ∀ (cs : List Cand) (pairs : List (String × String)),
      (((keepFirstByPair cs pairs).map (fun c => (c.ip, c.port))).Nodup) ∧
        ∀ c ∈ keepFirstByPair cs pairs, (c.ip, c.port) ∉ pairs := by
  intro cs
  induction cs with
  | nil => intro pairs; simp [keepFirstByPair]
  | cons c rest ih =>
    intro pairs
    simp only [keepFirstByPair]
    by_cases hmem : (c.ip, c.port) ∈ pairs
    · rw [if_pos hmem]; exact ih pairs
    · rw [if_neg hmem]
      obtain ⟨hnd, hnotin⟩ := ih ((c.ip, c.port) :: pairs)
      refine ⟨?_, ?_⟩
      · simp only [List.map_cons, List.nodup_cons]
        refine ⟨?_, hnd⟩
        intro hin
        obtain ⟨c', hc', heq⟩ := List.mem_map.mp hin
        exact hnotin c' hc' (heq ▸ List.mem_cons_self _ _)
      · intro x hx
        rcases List.mem_cons.mp hx with rfl | hx
        · exact hmem
        · exact fun hp => hnotin x hx (List.mem_cons_of_mem _ hp)

/-! ## Claim theorems -/

/-- The provider loop yields the failure sentinel when every attempt
fails. -/
theorem geoLoop_all_fail :
    ∀ (attempts : List ApiAttempt), (∀ a ∈ attempts, attemptFails a = true) →
      geoLoop attempts = "FAIL" := by
  intro attempts
  induction attempts with
  | nil => intro _; rfl
  | cons a rest ih =>
    intro hfail
    have ha := hfail a (List.mem_cons_self a rest)
    have hrest := fun x hx => hfail x (List.mem_cons_of_mem a hx)
    cases a with
    | fetchError => simpa [geoLoop] using ih hrest
    | status429 => simpa [geoLoop] using ih hrest
    | notOk => simpa [geoLoop] using ih hrest
    | ok code =>
      cases code with
      | none => simpa [geoLoop] using ih hrest
      | some c =>
        have hc : (c == "" || c == "-" || c == "None" || c == "??") = true := by
          simpa [attemptFails] using ha
        simp only [geoLoop, hc]
        simpa using ih hrest

/-- C2: for every host, `fetchIpGeo` never throws — the embedding is a
total function into `String`, every failure being encoded in the result —
and whenever the provider loop runs (nonempty, non-private host) and
every provider attempt fails (network error/timeout, 429, non-ok
response, or a missing/unknown extracted field), the result is the
constant `"FAIL"`. -/
theorem fetchIpGeo_all_fail (ip : String) (attempts : List ApiAttempt)
    (hip : ip ≠ "") (hpriv : isPrivateIp ip = false)
    (hfail : ∀ a ∈ attempts, attemptFails a = true) :
    fetchIpGeo ip attempts = "FAIL" := by
  unfold fetchIpGeo
  rw [if_neg hip, if_neg (by simp [hpriv])]
  exact geoLoop_all_fail attempts hfail

/-- Witness for C2 at a concrete host with one failing attempt of every
kind. -/
theorem fetchIpGeo_all_fail_witness :
    fetchIpGeo "8.8.8.8" [ApiAttempt.fetchError, ApiAttempt.status429,
      ApiAttempt.notOk, ApiAttempt.ok none, ApiAttempt.ok (some "??")] = "FAIL" :=
  fetchIpGeo_all_fail "8.8.8.8" _ (by decide) (by decide) (by decide)

/-- C4: every host matching a private/loopback pattern resolves to the
constant `"LOCAL"` regardless of any provider outcome (no provider is
consulted), and in particular `127.0.0.1`, `192.168.1.5` and `10.0.0.1`
do. -/
theorem fetchIpGeo_private_local :
    (∀ (ip : String) (attempts : List ApiAttempt), isPrivateIp ip = true →
        fetchIpGeo ip attempts = "LOCAL") ∧
    (∀ attempts : List ApiAttempt,
        fetchIpGeo "127.0.0.1" attempts = "LOCAL" ∧
        fetchIpGeo "192.168.1.5" attempts = "LOCAL" ∧
        fetchIpGeo "10.0.0.1" attempts = "LOCAL") := by
  have main : ∀ (ip : String) (attempts : List ApiAttempt), isPrivateIp ip = true →
      fetchIpGeo ip attempts = "LOCAL" := by
    intro ip attempts hp
    have hne : ¬(ip = "") := by
      intro h
      rw [h] at hp
      exact absurd hp (by decide)
    unfold fetchIpGeo
    rw [if_neg hne, if_pos hp]
  exact ⟨main, fun attempts =>
    ⟨main _ attempts (by decide), main _ attempts (by decide), main _ attempts (by decide)⟩⟩

/-- Witness for C4 at `127.0.0.1`. -/
theorem fetchIpGeo_private_local_witness : fetchIpGeo "127.0.0.1" [] = "LOCAL" :=
  fetchIpGeo_private_local.1 "127.0.0.1" [] (by decide)

/-- C10: the empty host short-circuits to the empty string, independently
of any provider outcome — a third interface value distinct from both
`"LOCAL"` and `"FAIL"`. -/
theorem fetchIpGeo_empty_host :
    ∀ attempts : List ApiAttempt,
      fetchIpGeo "" attempts = "" ∧ ("" : String) ≠ "LOCAL" ∧ ("" : String) ≠ "FAIL" :=
  fun _ => ⟨rfl, by decide, by decide⟩

/-- C3: when a worker's lookup for a host completes, the update rewrites
exactly the region of the entries that share the host and are still
marked in-progress; every other entry is returned unchanged, and the
length (hence order) of the list is preserved. -/
theorem applyResultToEntries_frame (ip region : String) (l : List IpEntry) :
    (applyResultToEntries ip region l).length = l.length ∧
    (∀ (i : Nat) (e : IpEntry), l[i]? = some e → e.ip = ip →
      e.region = inProgressSentinel →
      (applyResultToEntries ip region l)[i]? = some { e with region := region }) ∧
    (∀ (i : Nat) (e : IpEntry), l[i]? = some e →
      ¬(e.ip = ip ∧ e.region = inProgressSentinel) →
      (applyResultToEntries ip region l)[i]? = some e) := by
  refine ⟨List.length_map l _, ?_, ?_⟩
  · intro i e he h1 h2
    simp only [applyResultToEntries, List.getElem?_map, he, Option.map_some']
    rw [if_pos (by simp [h1, h2])]
  · intro i e he hn
    simp only [applyResultToEntries, List.getElem?_map, he, Option.map_some']
    rw [if_neg (by
      simp only [Bool.and_eq_true, beq_iff_eq]
      exact hn)]

/-- Witness for C3: a matching in-progress entry is rewritten while a
non-matching one is untouched. -/
theorem applyResultToEntries_frame_witness :
    (applyResultToEntries "9.9.9.9" "US"
      [{ id := "w1", ip := "9.9.9.9", port := "443", region := inProgressSentinel,
         active := true, isLocked := none },
       { id := "w2", ip := "8.8.8.8", port := "53", region := inProgressSentinel,
         active := true, isLocked := none }])[0]? =
      some { id := "w1", ip := "9.9.9.9", port := "443", region := "US",
             active := true, isLocked := none } ∧
    (applyResultToEntries "9.9.9.9" "US"
      [{ id := "w1", ip := "9.9.9.9", port := "443", region := inProgressSentinel,
         active := true, isLocked := none },
       { id := "w2", ip := "8.8.8.8", port := "53", region := inProgressSentinel,
         active := true, isLocked := none }])[1]? =
      some { id := "w2", ip := "8.8.8.8", port := "53", region := inProgressSentinel,
             active := true, isLocked := none } :=
  ⟨(applyResultToEntries_frame "9.9.9.9" "US" _).2.1 0 _ rfl rfl rfl,
   (applyResultToEntries_frame "9.9.9.9" "US" _).2.2 1 _ rfl (by decide)⟩

/-- A user-created locked record distinct from the fixed system entry. -/
def sampleLockedEntry : IpEntry :=
  { id := "user-locked-1", ip := "1.1.1.1", port := "443", region := "US",
    active := true, isLocked := some true }

/-- C9 counterexample: the confirmed bulk clear resets the list to the
single fixed record, so a locked record other than the fixed one is
destroyed, contradicting the claim for arbitrary record lists. -/
theorem handleClearConfirm_drops_locked :
    sampleLockedEntry.isLocked = some true ∧
    sampleLockedEntry ∈ [sampleLockedEntry] ∧
    sampleLockedEntry ∉ handleClearConfirm [sampleLockedEntry] := by decide

/-- C9 amended: the confirmed bulk clear replaces the record list with
exactly the single built-in fixed system record (which is locked); only
that locked record survives — any other record, locked or not, is
removed. -/
theorem handleClearConfirm_spec :
    ∀ l : List IpEntry,
      handleClearConfirm l = [INITIAL_FIXED_ENTRY] ∧
        INITIAL_FIXED_ENTRY.isLocked = some true :=
  fun _ => ⟨rfl, rfl⟩

/-- Loop invariant of `handleBatchAdd`: accepted entries either were
already collected or carry an allowed port, and the forbidden counter
adds exactly the number of denied-port entries of the remaining input. -/
theorem handleBatchAdd_loop :
    ∀ (parsed : List IpEntry) (existing : List IpEntry) (st : BatchResult),
      (∀ e ∈ (parsed.foldl (batchStep existing) st).newEntries,
        e ∈ st.newEntries ∨ (e.port ≠ "80" ∧ e.port ≠ "8080")) ∧
      (parsed.foldl (batchStep existing) st).forbidden =
        st.forbidden + parsed.countP (fun e => e.port == "80" || e.port == "8080") := by
  intro parsed
  induction parsed with
  | nil => intro existing st; exact ⟨fun e he => Or.inl he, by simp⟩
  | cons a rest ih =>
    intro existing st
    simp only [List.foldl_cons, List.countP_cons]
    by_cases hp : (a.port == "80" || a.port == "8080") = true
    · have hstep : batchStep existing st a = { st with forbidden := st.forbidden + 1 } := by
        unfold batchStep
        rw [if_pos hp]
      rw [hstep]
      obtain ⟨ihm, ihf⟩ := ih existing { st with forbidden := st.forbidden + 1 }
      refine ⟨ihm, ?_⟩
      rw [ihf, hp]
      simp
      omega
    · have hport : a.port ≠ "80" ∧ a.port ≠ "8080" := by
        simp only [Bool.or_eq_true, beq_iff_eq, not_or] at hp
        exact hp
      by_cases hd : (!(isDuplicate existing a.ip a.port) &&
          !(st.newEntries.any (fun ne => ne.ip == a.ip && ne.port == a.port))) = true
      · have hstep : batchStep existing st a =
            { st with newEntries := st.newEntries ++ [a] } := by
          unfold batchStep
          rw [if_neg (by simp [hp]), if_pos hd]
        rw [hstep]
        obtain ⟨ihm, ihf⟩ := ih existing { st with newEntries := st.newEntries ++ [a] }
        refine ⟨?_, ?_⟩
        · intro e he
          rcases ihm e he with hin | hok
          · rcases List.mem_append.mp hin with hin | hin
            · exact Or.inl hin
            · rcases List.mem_singleton.mp hin with rfl
              exact Or.inr hport
          · exact Or.inr hok
        · rw [ihf]
          simp [hp]
      · have hstep : batchStep existing st a = { st with dups := st.dups + 1 } := by
          unfold batchStep
          rw [if_neg (by simp [hp]), if_neg hd]
        rw [hstep]
        obtain ⟨ihm, ihf⟩ := ih existing { st with dups := st.dups + 1 }
        refine ⟨ihm, ?_⟩
        rw [ihf]
        simp [hp]

/-- C5: no record accepted by the batch import loop has port `"80"` or
`"8080"`; the exclusion count reported to the caller is exactly the
number of parsed records with such a port; and the single-entry path can
never create a record with such a port either. -/
theorem batchAdd_port_policy (parsed existing : List IpEntry) :
    (∀ e ∈ (handleBatchAdd parsed existing).newEntries,
        e.port ≠ "80" ∧ e.port ≠ "8080") ∧
    (handleBatchAdd parsed existing).forbidden =
      parsed.countP (fun e => e.port == "80" || e.port == "8080") ∧
    (∀ (genId ip port region : String) (ex : List IpEntry),
        (port = "80" ∨ port = "8080") →
        ∀ e, handleSingleAdd genId ip port region ex ≠ SingleAddResult.added e) := by
  obtain ⟨hm, hf⟩ := handleBatchAdd_loop parsed existing ⟨[], 0, 0⟩
  refine ⟨?_, ?_, ?_⟩
  · intro e he
    rcases hm e he with hin | hok
    · simp at hin
    · exact hok
  · simpa using hf
  · intro genId ip port region ex hport e
    rcases hport with rfl | rfl <;> by_cases hip : ip = "" <;>
      simp [handleSingleAdd, hip]

/-- Witness for C5: a parsed batch with one denied and one allowed port
keeps only the allowed record and reports one exclusion. -/
theorem batchAdd_port_policy_witness :
    ({ id := "w3", ip := "1.1.1.1", port := "443", region := "", active := true,
       isLocked := none } : IpEntry).port ≠ "80" ∧
    ({ id := "w3", ip := "1.1.1.1", port := "443", region := "", active := true,
       isLocked := none } : IpEntry).port ≠ "8080" :=
  (batchAdd_port_policy
    [{ id := "w4", ip := "127.0.0.1", port := "8080", region := "", active := true,
       isLocked := none },
     { id := "w3", ip := "1.1.1.1", port := "443", region := "", active := true,
       isLocked := none }] []).1 _ (by decide)

/-- C1: the records returned by `parseBatchInput` have pairwise-distinct
`(ip, port)` pairs across both passes, and (erasing the generated ids)
the output is exactly the scan-ordered candidate list filtered to first
occurrences of each `(ip, port)` pair — the first occurrence is emitted,
later ones are dropped silently. -/
theorem parseBatchInput_dedup (gen : Nat → String) (text : String) :
    (((parseBatchInput gen text).map (fun e => (e.ip, e.port))).Nodup) ∧
    ((parseBatchInput gen text).map entryCand = keepFirstByPair (candidatesOf text) []) := by
  have hcf : ∀ c ∈ candidatesOf text, ':' ∉ c.port.data :=
    candidatesOf_port_colonFree text
  have heq : (parseBatchInput gen text).map entryCand =
      keepFirstByPair (candidatesOf text) [] := by
    have h := emitGo_eq_keepFirst gen (candidatesOf text) [] [] 0 hcf (by simp)
    simpa [parseBatchInput] using h
  refine ⟨?_, heq⟩
  have hnd := (keepFirstByPair_nodup (candidatesOf text) []).1
  rw [← heq, List.map_map] at hnd
  exact hnd

/-- C6: the spec's scenario 3 — a trojan link with credentials, query and
a `#HK-Node-1` fragment yields exactly one record whose region is the
normalized first remark token `"HK"` (for any id supply). -/
theorem parseBatchInput_scenario3 (gen : Nat → String) :
    parseBatchInput gen "trojan://user@203.0.113.5:8443?x=1#HK-Node-1" =
      [{ id := gen 0, ip := "203.0.113.5", port := "8443", region := "HK",
         active := true, isLocked := none }] := rfl

/-- Every emitted entry's observable payload is one of the scan's
candidates. -/
theorem emitGo_mem (gen : Nat → String) :
    ∀ (cs : List Cand) (seen : List String) (out : List IpEntry) (ctr : Nat)
      (e : IpEntry), e ∈ emitGo gen cs seen out ctr →
      e ∈ out ∨ ∃ c ∈ cs, entryCand e = c := by
  intro cs
  induction cs with
  | nil => intro seen out ctr e he; exact Or.inl he
  | cons c rest ih =>
    intro seen out ctr e he
    simp only [emitGo] at he
    by_cases hmem : (c.ip ++ ":" ++ c.port) ∈ seen
    · rw [if_pos hmem] at he
      rcases ih _ _ _ e he with hout | ⟨c', hc', he'⟩
      · exact Or.inl hout
      · exact Or.inr ⟨c', List.mem_cons_of_mem c hc', he'⟩
    · rw [if_neg hmem] at he
      rcases ih _ _ _ e he with hout | ⟨c', hc', he'⟩
      · rcases List.mem_append.mp hout with hout | hout
        · exact Or.inl hout
        · rcases List.mem_singleton.mp hout with rfl
          exact Or.inr ⟨c, List.mem_cons_self c rest, rfl⟩
      · exact Or.inr ⟨c', List.mem_cons_of_mem c hc', he'⟩

/-- C7 counterexample: the link-form pass accepts a one-digit port — on
`trojan://a:7#HK` the parser emits a record whose port `"7"` has length
1, so the 2–5 digit rule does not hold for the link-form pass. -/
theorem protoPass_one_digit_port :
    parseBatchInput (fun _ => "id0") "trojan://a:7#HK" =
      [{ id := "id0", ip := "a", port := "7", region := "HK",
         active := true, isLocked := none }] ∧
    ("7" : String).length = 1 := by
  exact ⟨rfl, rfl⟩

/-- C7 amended: the 2–5 digit port rule holds for the address-pattern
pass only — every record emitted by `parseBatchInput` either comes from a
link-form candidate (whose port is any nonempty digit run) or carries a
port of 2 to 5 digits. -/
theorem parseBatchInput_port_length (gen : Nat → String) (text : String)
    (e : IpEntry) (he : e ∈ parseBatchInput gen text) :
    entryCand e ∈ protoCandsOf text ∨
      (2 ≤ e.port.length ∧ e.port.length ≤ 5 ∧
        ∀ ch ∈ e.port.data, isDigitC ch = true) := by
  unfold parseBatchInput at he
  rcases emitGo_mem gen _ _ _ _ e he with hout | ⟨c, hc, hec⟩
  · simp at hout
  · simp only [candidatesOf] at hc
    by_cases ht : text = ""
    · rw [if_pos ht] at hc; simp at hc
    · rw [if_neg ht] at hc
      rcases List.mem_append.mp hc with hc | hc
      · exact Or.inl (hec ▸ hc)
      · obtain ⟨h2, h5, hdig⟩ := stdCandsOf_port text c hc
        have hport : e.port = c.port := congrArg Cand.port hec
        rw [hport]
        exact Or.inr ⟨h2, h5, hdig⟩

/-- Witness for C7's amended claim at a concrete address-pass record. -/
theorem parseBatchInput_port_length_witness :
    entryCand { id := "w5", ip := "1.1.1.1", port := "443", region := "",
                active := true, isLocked := none } ∈ protoCandsOf "1.1.1.1:443" ∨
      (2 ≤ ({ id := "w5", ip := "1.1.1.1", port := "443", region := "",
              active := true, isLocked := none } : IpEntry).port.length ∧
        ({ id := "w5", ip := "1.1.1.1", port := "443", region := "",
           active := true, isLocked := none } : IpEntry).port.length ≤ 5 ∧
        ∀ ch ∈ ({ id := "w5", ip := "1.1.1.1", port := "443", region := "",
                  active := true, isLocked := none } : IpEntry).port.data,
          isDigitC ch = true) :=
  parseBatchInput_port_length (fun _ => "w5") "1.1.1.1:443" _ (by decide)

/-- C8 counterexample: `id` fields come from `uuidv4()`, so two calls on
the same input with different draws return different record lists — the
parser is not deterministic in the `id` field. -/
theorem parseBatchInput_id_nondeterministic :
    parseBatchInput (fun _ => "a") "1.1.1.1:443" ≠
      parseBatchInput (fun _ => "b") "1.1.1.1:443" := by decide

/-- C8 amended: apart from the freshly generated `id` fields,
`parseBatchInput` is a pure deterministic function of its input: any two
calls on the same text agree on the whole record list with ids erased. -/
theorem parseBatchInput_deterministic_mod_id (g1 g2 : Nat → String) (text : String) :
    (parseBatchInput g1 text).map entryCand = (parseBatchInput g2 text).map entryCand := by
  have hcf : ∀ c ∈ candidatesOf text, ':' ∉ c.port.data :=
    candidatesOf_port_colonFree text
  have h1 := emitGo_eq_keepFirst g1 (candidatesOf text) [] [] 0 hcf (by simp)
  have h2 := emitGo_eq_keepFirst g2 (candidatesOf text) [] [] 0 hcf (by simp)
  simp only [List.map_nil, List.nil_append] at h1 h2
  unfold parseBatchInput
  rw [h1, h2]
